import Mathlib

/-!
Verification of the resumable scan / checkpointed queue / rate-limited
mutation pipeline of the addwikigeolocation repository.

The definitions below are a shallow embedding of the Python source:
scanner.py (ScanState, load_state, save_state, scan_user_uploads),
processor.py (rate_limit_sleep, process_needs_exif) and
commons_client.py (UploadInfo, list_uploads, the File: title handling).
External collaborators (the MediaWiki API, the JSON codec, the filesystem,
the wall clock) are modelled through the interfaces the code uses:
page oracles, parse outcomes, a small filesystem-operation language and a
rational-valued clock advanced by the sleeps the code requests.
-/

set_option linter.unusedVariables false

/-- An opaque continuation token: the api-continue parameter dictionary that
commons_client.list_uploads threads back into the next listing call.
The core never inspects it, it only stores and forwards it. -/
abbrev ContToken := List (String × String)

/-- commons_client.py, dataclass UploadInfo (lines 66-91).
lat and lon are Optional floats in the source; they are carried opaquely,
so they are modelled as optional rationals. -/
structure UploadInfo where
  title : String
  has_coords : Bool
  has_exif_gps : Bool
  lat : Option ℚ := none
  lon : Option ℚ := none
  url : Option String := none
  author : Option String := none
deriving DecidableEq, Repr

/-- scanner.py, dataclass ScanState (lines 18-40). -/
structure ScanState where
  needs_exif : List UploadInfo := []
  needs_template : List String := []
  scan_continue : Option ContToken := none
deriving DecidableEq, Repr

/-- The JSON object written by UploadInfo.to_dict / read by
UploadInfo.from_dict.  A field that is absent and a field whose value is
null are both modelled as none, exactly the view that dict.get gives the
reading code. -/
structure UploadDict where
  title : Option String := none
  has_coords : Option Bool := none
  has_exif_gps : Option Bool := none
  lat : Option ℚ := none
  lon : Option ℚ := none
  url : Option String := none
  author : Option String := none
deriving DecidableEq, Repr

/-- UploadInfo.from_dict also accepts a bare string (commons_client.py
line 81), so its input is a string or an object. -/
inductive UploadDictOrStr where
  | str (s : String)
  | dict (d : UploadDict)
deriving DecidableEq, Repr

/-- commons_client.py lines 76-77: dataclasses.asdict emits every field. -/
def UploadInfo.to_dict (u : UploadInfo) : UploadDict :=
  { title := some u.title
    has_coords := some u.has_coords
    has_exif_gps := some u.has_exif_gps
    lat := u.lat
    lon := u.lon
    url := u.url
    author := u.author }

/-- commons_client.py lines 79-91: missing fields default to empty string,
False, or None via dict.get. -/
def UploadInfo.from_dict : UploadDictOrStr → UploadInfo
  | .str s => { title := s, has_coords := false, has_exif_gps := false }
  | .dict d =>
    { title := d.title.getD ""
      has_coords := d.has_coords.getD false
      has_exif_gps := d.has_exif_gps.getD false
      lat := d.lat
      lon := d.lon
      url := d.url
      author := d.author }

/-- The JSON object written by ScanState.to_dict. -/
structure StateDict where
  needs_exif : Option (List UploadDictOrStr) := none
  needs_template : Option (List String) := none
  scan_continue : Option ContToken := none
deriving DecidableEq, Repr

/-- scanner.py lines 24-29. -/
def ScanState.to_dict (s : ScanState) : StateDict :=
  { needs_exif := some (s.needs_exif.map (fun u => .dict u.to_dict))
    needs_template := some s.needs_template
    scan_continue := s.scan_continue }

/-- Python truthiness of the decoded top-level object: an object with no
keys is falsy, which scanner.py line 33 treats like None. -/
def StateDict.isFalsy (d : StateDict) : Bool :=
  d.needs_exif.isNone && d.needs_template.isNone && d.scan_continue.isNone

/-- scanner.py lines 31-40; the none argument models a falsy decoded value
(null), handled by the `if not data` branch. -/
def ScanState.from_dict : Option StateDict → ScanState
  | none => {}
  | some d =>
    if d.isFalsy then {}
    else
      { needs_exif := (d.needs_exif.getD []).map UploadInfo.from_dict
        needs_template := d.needs_template.getD []
        scan_continue := d.scan_continue }

/-! ## Checkpoint load (scanner.py load_state, lines 43-53) -/
/-- The path of the checkpoint file, split the way pathlib views it:
directory, stem and (final) suffix, so that Path.with_suffix is exact. -/
structure LoadPath where
  dir : String
  stem : String
  suffix : String
deriving DecidableEq, Repr

/-- What the filesystem plus json.load give load_state for the checkpoint
path: the file is absent; or it exists but its bytes are not valid UTF-8
(carried as raw byte values), so json.load raises UnicodeDecodeError
while decoding them; or it exists and decodes as UTF-8 but is not JSON
(any such string, the empty one included), so json.load raises
JSONDecodeError; or it exists and json.load decodes it (none modelling a
falsy decoded value such as null). -/
inductive CheckpointFile where
  | absent
  | undecodable (bytes : List ℕ)
  | unparsable (raw : String)
  | parsed (d : Option StateDict)
deriving DecidableEq, Repr

/-- The observable outcome of load_state when it returns: the state and,
when the file was quarantined, the backup path it was renamed to. -/
structure LoadResult where
  state : ScanState
  renamedTo : Option LoadPath
deriving DecidableEq, Repr

/-- A call to load_state either returns a result or raises an exception
that the except clause of scanner.py line 48 (which names only
json.JSONDecodeError) does not catch, aborting the caller. -/
inductive LoadOutcome where
  | ok (r : LoadResult)
  | raised
deriving DecidableEq, Repr

/-- scanner.py lines 43-53.  ts is the UTC timestamp string interpolated
into the backup suffix.  Path.with_suffix replaces the final suffix, and
the new suffix begins with the old one, so the backup keeps the whole
original name and stays in the same directory.  Only JSONDecodeError is
caught: the UnicodeDecodeError that json.load raises on an undecodable
file propagates out of load_state. -/
def loadState (p : LoadPath) (file : CheckpointFile) (ts : String) : LoadOutcome :=
  match file with
  | .absent => .ok { state := {}, renamedTo := none }
  | .undecodable _ => .raised
  | .unparsable _ =>
    .ok { state := {}
          renamedTo := some { dir := p.dir, stem := p.stem
                              suffix := p.suffix ++ ".corrupt." ++ ts ++ ".bak" } }
  | .parsed d => .ok { state := ScanState.from_dict d, renamedTo := none }

/-! ## Checkpoint save (scanner.py save_state, lines 56-67)

save_state is a straight-line sequence of filesystem calls:
NamedTemporaryFile(dir=path.parent) creates a fresh file in the
destination directory, json.dump writes the serialised state to it in
some sequence of chunks, then flush, os.fsync, and one atomic
os.replace of the temporary name over the destination.  The sequence is
embedded as a list of operations over a filesystem modelled as a map
from paths to file contents; a crash at any instant leaves exactly the
state after some prefix of the sequence. -/
/-- A path: the directory it lives in, and the file name inside it. -/
abbrev PathT := String × String

inductive FsOp where
  | create (p : PathT)
  | write (p : PathT) (data : String)
  | flushOp
  | fsyncOp
  | rename (src dst : PathT)
deriving DecidableEq, Repr

/-- Filesystem contents: none is an absent file. -/
abbrev Fs := PathT → Option String

def execOp (fs : Fs) : FsOp → Fs
  | .create p => fun q => if q = p then some "" else fs q
  | .write p s => fun q => if q = p then some ((fs p).getD "" ++ s) else fs q
  | .flushOp => fs
  | .fsyncOp => fs
  | .rename src dst => fun q => if q = dst then fs src else if q = src then none else fs q

def execOps (fs : Fs) : List FsOp → Fs
  | [] => fs
  | op :: rest => execOps (execOp fs op) rest

/-- Which paths an operation can affect. -/
def FsOp.touches : FsOp → PathT → Prop
  | .create p, q => p = q
  | .write p _, q => p = q
  | .flushOp, _ => False
  | .fsyncOp, _ => False
  | .rename src dst, q => src = q ∨ dst = q

/-- scanner.py lines 56-62: the exact operation sequence of save_state.
tmpName is the fresh random name chosen by NamedTemporaryFile inside
path.parent; chunks is the chunking the JSON serialiser happens to use,
whose concatenation is the serialised state. -/
def saveStateOps (path : PathT) (tmpName : String) (chunks : List String) : List FsOp :=
  FsOp.create (path.1, tmpName) ::
    chunks.map (fun c => FsOp.write (path.1, tmpName) c) ++
      [FsOp.flushOp, FsOp.fsyncOp, FsOp.rename (path.1, tmpName) path]

/-! ## The classifier and the crawl loop (scanner.py scan_user_uploads)

Python string primitives are embedded over the character lists of the
titles: str.lower maps Char.toLower over the characters, str.endswith is
list-suffix, and the `in` operator on strings is list-infix. -/
def lowerStr (s : String) : String := String.mk (s.data.map Char.toLower)

/-- scanner.py line 96: title.lower().endswith with the two JPEG suffixes. -/
def isJpegTitle (t : String) : Bool :=
  decide (".jpg".data <:+ (lowerStr t).data) || decide (".jpeg".data <:+ (lowerStr t).data)

/-- scanner.py line 98: the entry is skipped when author_filter and
upload.author are both truthy (non-None, non-empty) and the lowered filter
is not a substring of the lowered author. -/
def authorSkip (author_filter : Option String) (u : UploadInfo) : Bool :=
  match author_filter, u.author with
  | some f, some a =>
    if f = "" || a = "" then false
    else ! decide ((lowerStr f).data <:+: (lowerStr a).data)
  | _, _ => false

/-- scanner.py lines 95-104: the body of the per-upload for loop.  The
accumulator is the mutable (state, seen_titles) pair; seen_titles is a set
in the source, carried here as a list used only through membership. -/
def scanEntry (author_filter : Option String) (acc : ScanState × List String)
    (u : UploadInfo) : ScanState × List String :=
  let st := acc.1
  let seen := acc.2
  if ! isJpegTitle u.title then (st, seen)
  else if authorSkip author_filter u then (st, seen)
  else
    let st2 :=
      if u.has_coords && ! u.has_exif_gps then
        { st with needs_exif := st.needs_exif ++ [u] }
      else if u.has_exif_gps && ! u.has_coords then
        { st with needs_template := st.needs_template ++ [u.title] }
      else st
    (st2, seen ++ [u.title])

def processPage (author_filter : Option String) (st : ScanState) (seen : List String)
    (uploads : List UploadInfo) : ScanState × List String :=
  uploads.foldl (scanEntry author_filter) (st, seen)

/-- Python truthiness of a continuation token: None and the empty
parameter dictionary are both falsy (`not cont`). -/
def contFalsy : Option ContToken → Bool
  | none => true
  | some d => d.isEmpty

/-- The observable actions of scan_user_uploads: a gateway page request
(with the cursor it was issued under, the uploads it returned and the next
cursor) and a save_state call (with the state it persisted). -/
inductive ScanEvent where
  | fetch (cursor : Option ContToken) (uploads : List UploadInfo) (next : Option ContToken)
  | save (st : ScanState)
deriving DecidableEq, Repr

/-- The gateway as the crawl loop sees it: given the threaded cursor and
the current seen_titles, one call returns a page of uploads and the next
cursor (commons_client.list_uploads; in category mode the scanner forces
the cursor to None). -/
abbrev Fetcher := Option ContToken → List String → List UploadInfo × Option ContToken

/-- scanner.py lines 88-109: the while-True crawl loop.  fuel bounds the
number of iterations of the model; the Bool records whether the loop
reached its break (fuel never ran out), so that theorems about a finished
crawl can require it. -/
def crawlLoop (fetch : Fetcher) (author_filter : Option String) :
    ℕ → ScanState → List String → Option ContToken →
      List ScanEvent × ScanState × Bool
  | 0, st, _, _ => ([], st, false)
  | fuel + 1, st, seen, cont =>
    let page := fetch cont seen
    let uploads := page.1
    let cont2 := page.2
    let ps := processPage author_filter st seen uploads
    let st3 : ScanState := { ps.1 with scan_continue := cont2 }
    let evs := [ScanEvent.fetch cont uploads cont2, ScanEvent.save st3]
    if contFalsy cont2 || uploads.isEmpty then (evs, st3, true)
    else
      let r := crawlLoop fetch author_filter fuel st3 ps.2 cont2
      (evs ++ r.1, r.2.1, r.2.2)

/-- scanner.py lines 70-118: seen_titles is seeded from both queues
(line 79, before the stale-entry filter of line 82), entries without
coordinates are dropped from needs_exif, and when both queues are
non-empty and no crawl is pending the state is returned at once
(lines 83-84); otherwise the crawl loop runs. -/
def scanUserUploads (fetch : Fetcher) (author_filter : Option String) (fuel : ℕ)
    (st : ScanState) : List ScanEvent × ScanState × Bool :=
  let seen := st.needs_exif.map (fun u => u.title) ++ st.needs_template
  let cont := st.scan_continue
  let ne2 := st.needs_exif.filter (fun u => u.has_coords)
  let st1 : ScanState := { st with needs_exif := ne2 }
  if ne2 ≠ [] ∧ st1.needs_template ≠ [] ∧ contFalsy cont then ([], st1, true)
  else crawlLoop fetch author_filter fuel st1 seen cont

/-! ## The listing gateway (commons_client.py list_uploads, lines 186-221) -/
/-- commons_client.py line 126-127: drop one leading File: prefix. -/
def stripFileTitle (t : String) : String :=
  if decide ("File:".data <+: t.data) then String.mk (t.data.drop 5) else t

/-- The per-title detail the batched query returns (coordinates block,
EXIF GPS metadata, url, extmetadata author).  An oracle stands for the
remote wiki. -/
structure PageDetail where
  has_coords : Bool
  has_exif_gps : Bool
  lat : Option ℚ := none
  lon : Option ℚ := none
  url : Option String := none
  author : Option String := none

/-- commons_client.py lines 150-184: one batched detail query.  The query
echoes each requested title and line 162 strips the File: prefix from it;
batching into groups of 50 concatenates in order, so it is value-equal to
a single map. -/
def fetchPagesBatchM (detail : String → PageDetail) (titles : List String) :
    List UploadInfo :=
  titles.map (fun t =>
    let d := detail t
    { title := stripFileTitle t
      has_coords := d.has_coords
      has_exif_gps := d.has_exif_gps
      lat := d.lat
      lon := d.lon
      url := d.url
      author := d.author })

/-- commons_client.py lines 202-220: the inner pagination of
list_uploads.  logPages is the sequence of logevents pages the API
serves; each page is filtered against the accumulated seen set (raw,
File:-prefixed titles), the survivors are added to seen and detail-fetched
in order.  The source always returns a None next cursor. -/
def listUploadsGo (detail : String → PageDetail) :
    List (List String) → List String → List UploadInfo
  | [], _ => []
  | titles :: rest, seen =>
    let newTitles := titles.filter (fun t => ! seen.contains t)
    fetchPagesBatchM detail newTitles ++ listUploadsGo detail rest (seen ++ newTitles)

/-! ## C5: cross-session deduplication -/
/-- Remote state for the duplication scenario: the page detail of every
title reports page coordinates and no EXIF GPS. -/
def dupDetail : String → PageDetail :=
  fun _ => { has_coords := true, has_exif_gps := false }

/-- The gateway serving one upload-log page holding the raw (namespaced)
title File:X.jpg, through the list_uploads model. -/
def dupFetcher : Fetcher :=
  fun _ seen => (listUploadsGo dupDetail [["File:X.jpg"]] seen, none)

/-- A resumed session: the previous crawl already queued X.jpg (stored,
as the code stores it, without the File: prefix) and completed. -/
def dupState : ScanState :=
  { needs_exif := [{ title := "X.jpg", has_coords := true, has_exif_gps := false }] }

/-- A two-page gateway for exercising the crawl loop: the first call
returns one upload and a continuation token, the second returns an empty
page and no token. -/
def twoPageFetcher : Fetcher := fun c _ =>
  if c = none then
    ([{ title := "a.jpg", has_coords := true, has_exif_gps := false }],
      some [("lecontinue", "1")])
  else ([], none)

/-! ## The processor (processor.py process_needs_exif, lines 25-98)

The mutation collaborators are oracles indexed by the iteration counter:
download_file either returns a path or None (it catches request errors
itself, commons_client.py lines 239-241), and the write_exif /
upload_file step either succeeds or raises an exception that the inner
handler of processor.py line 77 catches.  random.shuffle is an oracle
permutation of the queue snapshot. -/
inductive MutResult where
  | ok
  | err
deriving DecidableEq, Repr

structure ProcEnv where
  shuffled : List UploadInfo
  download : ℕ → Bool
  mutate : ℕ → MutResult

/-- The summary counters of process_needs_exif together with the live
queue, the remaining edit budget and the number of loop iterations run. -/
structure ProcResult where
  queue : List UploadInfo
  updated : ℕ := 0
  skipped_has_gps : ℕ := 0
  skipped_no_gps : ℕ := 0
  errors : ℕ := 0
  edits : ℤ
  processed : ℕ := 0
deriving DecidableEq, Repr

/-- processor.py lines 47-94: the body of the for loop over the shuffled
snapshot.  The two skip branches remove the item and continue without
touching the budget check; the mutation branch removes the item (the
membership test of line 80 embedded as the conditional), and the loop
breaks when the budget hits exactly zero (line 92), which only a
successful mutation can make it do. -/
def processGo (env : ProcEnv) : List UploadInfo → ℕ → ProcResult → ProcResult
  | [], _, r => r
  | u :: rest, idx, r =>
    if ! u.has_coords then
      processGo env rest (idx + 1)
        { r with queue := r.queue.erase u
                 skipped_no_gps := r.skipped_no_gps + 1
                 processed := r.processed + 1 }
    else if u.has_exif_gps then
      processGo env rest (idx + 1)
        { r with queue := r.queue.erase u
                 skipped_has_gps := r.skipped_has_gps + 1
                 processed := r.processed + 1 }
    else
      let r2 :=
        if ! env.download idx then { r with errors := r.errors + 1 }
        else
          match env.mutate idx with
          | .ok => { r with updated := r.updated + 1, edits := r.edits - 1 }
          | .err => { r with errors := r.errors + 1 }
      let r3 : ProcResult :=
        { r2 with queue := if u ∈ r2.queue then r2.queue.erase u else r2.queue
                  processed := r2.processed + 1 }
      if r3.edits = 0 then r3
      else processGo env rest (idx + 1) r3

/-- processor.py lines 25-47: snapshot the queue, shuffle, start from the
edit budget `count` with an empty timestamp window. -/
def processNeedsExif (env : ProcEnv) (st : ScanState) (count : ℤ) : ProcResult :=
  processGo env env.shuffled 1 { queue := st.needs_exif, edits := count }

/-- A two-item run for exercising queue retirement: one eligible item and
one stale item without coordinates, shuffled against the stored order. -/
def retireEnv : ProcEnv :=
  { shuffled := [{ title := "a.jpg", has_coords := true, has_exif_gps := false },
                 { title := "b.jpg", has_coords := false, has_exif_gps := false }]
    download := fun _ => true
    mutate := fun _ => MutResult.ok }

def retireState : ScanState :=
  { needs_exif := [{ title := "b.jpg", has_coords := false, has_exif_gps := false },
                   { title := "a.jpg", has_coords := true, has_exif_gps := false }] }

/-- Five eligible items, downloads and mutations all succeeding. -/
def budgetEnv : ProcEnv :=
  { shuffled := [{ title := "1.jpg", has_coords := true, has_exif_gps := false },
                 { title := "2.jpg", has_coords := true, has_exif_gps := false },
                 { title := "3.jpg", has_coords := true, has_exif_gps := false },
                 { title := "4.jpg", has_coords := true, has_exif_gps := false },
                 { title := "5.jpg", has_coords := true, has_exif_gps := false }]
    download := fun _ => true
    mutate := fun _ => MutResult.ok }

def budgetState : ScanState := { needs_exif := budgetEnv.shuffled }

/-! ## The rate limiter (processor.py rate_limit_sleep, lines 15-22)

Timing model: time is rational.  time.sleep suspends for at least the
requested duration (a non-negative slack oracle gives any extra delay),
the work of a loop iteration takes oracle-given non-negative time, and
random.uniform supplies the jitter draw.  Only iterations that do not hit
a continue statement reach rate_limit_sleep (processor.py line 94), so a
run is a list of such iterations: each performs its work (the mutation,
when it issues one, happens during that work) and then calls
rate_limit_sleep. -/
structure TIter where
  isMut : Bool
  preWork : ℚ
  postWork : ℚ
  slack : ℚ
  jit : ℚ

/-- The filter predicate of processor.py line 17: now - t < 60. -/
def recentP (now t : ℚ) : Bool := decide (now - t < 60)

/-- processor.py line 17: drop the timestamps that left the window. -/
def rlsKept (now : ℚ) (stamps : List ℚ) : List ℚ :=
  stamps.filter (recentP now)

/-- processor.py lines 18-20: when the kept window already holds
max_edits_per_min entries, sleep 60 - (now - edit_timestamps[0]) seconds,
at least 1; slack is the extra time the sleep may take.  Returns the
clock at the moment line 21 appends time.time(). -/
def rlsAfterSleep (maxE : ℕ) (slack now : ℚ) (kept : List ℚ) : ℚ :=
  if maxE ≤ kept.length then now + max (60 - (now - kept.headI)) 1 + slack else now

/-- processor.py lines 15-22: the clock when the call returns (after the
jitter sleep of line 22), the new edit_timestamps list, and the appended
timestamp. -/
def rateLimitSleep (maxE : ℕ) (slack jit now : ℚ) (stamps : List ℚ) :
    ℚ × List ℚ × ℚ :=
  let kept := rlsKept now stamps
  let a := rlsAfterSleep maxE slack now kept
  (a + jit, kept ++ [a], a)

/-- The timed trace of the processing loop: for each iteration reaching
rate_limit_sleep, the time of the mutation action it issued (if any) and
the timestamp rate_limit_sleep appended. -/
def procTimes (maxE : ℕ) : List TIter → ℚ → List ℚ → List (Option ℚ × ℚ)
  | [], _, _ => []
  | it :: rest, clock, stamps =>
    let m := clock + it.preWork
    let now := m + it.postWork
    let r := rateLimitSleep maxE it.slack it.jit now stamps
    ((if it.isMut then some m else none), r.2.2) :: procTimes maxE rest r.1 r.2.1

/-- Membership of the sliding window (x - 60, x]. -/
def winP (x t : ℚ) : Bool := decide (x - 60 < t ∧ t ≤ x)

def winCount (l : List ℚ) (x : ℚ) : ℕ := l.countP (winP x)

def mutTimes (l : List (Option ℚ × ℚ)) : List ℚ := l.filterMap (fun p => p.1)

def stampTimes (l : List (Option ℚ × ℚ)) : List ℚ := l.map (fun p => p.2)

/-- Two back-to-back successful mutations taking no time, with zero
jitter (base_sleep = 0). -/
def burstIters : List TIter :=
  [{ isMut := true, preWork := 0, postWork := 0, slack := 0, jit := 0 },
   { isMut := true, preWork := 0, postWork := 0, slack := 0, jit := 0 }]

/-! ## Theorems -/

/-! ## Theorems for C9 and C2 -/
lemma uploadInfo_from_to (u : UploadInfo) :
    UploadInfo.from_dict (.dict u.to_dict) = u := by
  cases u
  simp [UploadInfo.to_dict, UploadInfo.from_dict]

/-- C9: serialisation round-trips.  ScanState.from_dict inverts
ScanState.to_dict on every state, UploadInfo.from_dict inverts
UploadInfo.to_dict on every record, and optional fields that are missing
from the input object default to absent (empty title, false flags, none
for the rest); a falsy top-level value decodes to the empty state. -/
theorem state_dict_roundtrip :
    (∀ s : ScanState, ScanState.from_dict (some s.to_dict) = s) ∧
    (∀ u : UploadInfo, UploadInfo.from_dict (.dict u.to_dict) = u) ∧
    (∀ t : String, UploadInfo.from_dict (.dict { title := some t }) =
      { title := t, has_coords := false, has_exif_gps := false }) ∧
    ScanState.from_dict none = {} ∧
    ScanState.from_dict (some {}) = {} := by
  refine ⟨?_, uploadInfo_from_to, ?_, rfl, rfl⟩
  · intro s
    cases s
    simp [ScanState.to_dict, ScanState.from_dict, StateDict.isFalsy,
      List.map_map, Function.comp_def, uploadInfo_from_to]
  · intro t
    simp [UploadInfo.from_dict]

/-- C2 fails on the code: load_state recovers only from JSONDecodeError.
An existing checkpoint whose bytes are not valid UTF-8 (for instance the
single byte 255, or a JSON checkpoint torn inside a multi-byte character
by the very crash the recovery exists for) makes json.load raise
UnicodeDecodeError, which the except clause of scanner.py line 48 does
not catch, so load_state raises and the program aborts instead of
quarantining the file and returning a fresh state.  For an existing file
that decodes as UTF-8 but is not JSON (empty bytes included) and for an
absent file, the claimed recovery does hold: fresh empty state, and for
the former a rename to the timestamped corrupt-backup in the same
directory. -/
theorem load_state_uncaught_unicode (p : LoadPath) (bytes : List ℕ)
    (raw ts : String) :
    loadState { dir := "d", stem := "state", suffix := ".json" }
        (.undecodable [255]) "20260101000000" = .raised ∧
    loadState p (.undecodable bytes) ts = .raised ∧
    loadState p (.unparsable raw) ts =
      .ok { state := {}
            renamedTo := some { dir := p.dir, stem := p.stem
                                suffix := p.suffix ++ ".corrupt." ++ ts ++ ".bak" } } ∧
    loadState p .absent ts = .ok { state := {}, renamedTo := none } :=
  ⟨rfl, rfl, rfl, rfl⟩

lemma execOps_append (fs : Fs) (l₁ l₂ : List FsOp) :
    execOps fs (l₁ ++ l₂) = execOps (execOps fs l₁) l₂ := by
  induction l₁ generalizing fs with
  | nil => rfl
  | cons op rest ih => simp [execOps, ih]

lemma execOps_untouched (q : PathT) :
    ∀ (ops : List FsOp) (fs : Fs), (∀ op ∈ ops, ¬ op.touches q) →
      execOps fs ops q = fs q := by
  intro ops
  induction ops with
  | nil => intro fs _; rfl
  | cons op rest ih =>
    intro fs h
    have hop : ¬ op.touches q := h op (by simp)
    have hrest := ih (execOp fs op) (fun o ho => h o (by simp [ho]))
    rw [execOps, hrest]
    cases op with
    | create p => simp [FsOp.touches] at hop; simp [execOp, Ne.symm hop]
    | write p s => simp [FsOp.touches] at hop; simp [execOp, Ne.symm hop]
    | flushOp => rfl
    | fsyncOp => rfl
    | rename src dst =>
      simp [FsOp.touches] at hop
      simp [execOp, Ne.symm hop.1, Ne.symm hop.2]

lemma foldl_append_init (rest : List String) :
    ∀ a b : String, List.foldl (fun r s => r ++ s) (a ++ b) rest =
      a ++ List.foldl (fun r s => r ++ s) b rest := by
  induction rest with
  | nil => intro a b; rfl
  | cons c r ih =>
    intro a b
    simp only [List.foldl_cons, String.append_assoc]
    exact ih a (b ++ c)

lemma join_cons (c : String) (rest : List String) :
    String.join (c :: rest) = c ++ String.join rest := by
  show List.foldl (fun r s => r ++ s) ("" ++ c) rest = c ++ String.join rest
  have h := foldl_append_init rest c ""
  simpa [String.join] using h

lemma execOps_writes (tmp : PathT) :
    ∀ (chunks : List String) (fs : Fs) (s : String), fs tmp = some s →
      execOps fs (chunks.map (fun c => FsOp.write tmp c)) tmp =
        some (s ++ String.join chunks) := by
  intro chunks
  induction chunks with
  | nil => intro fs s h; simpa [execOps, String.join]
  | cons c rest ih =>
    intro fs s h
    rw [List.map_cons, execOps]
    have hstep : execOp fs (FsOp.write tmp c) tmp = some (s ++ c) := by
      simp [execOp, h]
    rw [ih _ _ hstep, join_cons, String.append_assoc]

lemma prefix_snoc_cases {α : Type} {l : List α} {x : α} {pre : List α}
    (h : pre <+: l ++ [x]) : pre <+: l ∨ pre = l ++ [x] := by
  obtain ⟨t, ht⟩ := h
  induction t using List.reverseRecOn with
  | nil => right; simpa using ht
  | append_singleton t' y _ =>
    left
    have h2 : (pre ++ t') ++ [y] = l ++ [x] := by
      simpa [List.append_assoc] using ht
    have h3 : pre ++ t' = l := by
      have := congrArg List.dropLast h2
      simpa [List.dropLast_concat] using this
    exact ⟨t', h3⟩

lemma mem_save_front {path : PathT} {tmpName : String} {chunks : List String} {op : FsOp}
    (h : op ∈ FsOp.create (path.1, tmpName) ::
      chunks.map (fun c => FsOp.write (path.1, tmpName) c) ++ [FsOp.flushOp, FsOp.fsyncOp]) :
    op = FsOp.create (path.1, tmpName) ∨
      (∃ c, op = FsOp.write (path.1, tmpName) c) ∨
      op = FsOp.flushOp ∨ op = FsOp.fsyncOp := by
  simp at h
  rcases h with rfl | ⟨c, _, rfl⟩ | rfl | rfl
  · exact Or.inl rfl
  · exact Or.inr (Or.inl ⟨c, rfl⟩)
  · exact Or.inr (Or.inr (Or.inl rfl))
  · exact Or.inr (Or.inr (Or.inr rfl))

/-- C1: save_state is crash-atomic.  For any crash instant (any prefix of
the operation sequence) the destination path holds either its previous
contents or the complete new serialisation, never a partial write; the
completed sequence installs the full serialisation; the temporary file
lives in the destination directory; and the sequence ends with flush,
fsync, and then the single atomic rename. -/
theorem save_state_atomic (path : PathT) (tmpName : String) (chunks : List String)
    (fs0 : Fs) (hfresh : (path.1, tmpName) ≠ path) :
    (∀ pre, pre <+: saveStateOps path tmpName chunks →
        execOps fs0 pre path = fs0 path ∨
        execOps fs0 pre path = some (String.join chunks)) ∧
    execOps fs0 (saveStateOps path tmpName chunks) path = some (String.join chunks) ∧
    saveStateOps path tmpName chunks =
      (FsOp.create (path.1, tmpName) ::
        chunks.map (fun c => FsOp.write (path.1, tmpName) c) ++
          [FsOp.flushOp, FsOp.fsyncOp]) ++ [FsOp.rename (path.1, tmpName) path] := by
  have hshape : saveStateOps path tmpName chunks =
      (FsOp.create (path.1, tmpName) ::
        chunks.map (fun c => FsOp.write (path.1, tmpName) c) ++
          [FsOp.flushOp, FsOp.fsyncOp]) ++ [FsOp.rename (path.1, tmpName) path] := by
    simp [saveStateOps]
  have hfront_path : ∀ pre,
      pre <+: FsOp.create (path.1, tmpName) ::
        chunks.map (fun c => FsOp.write (path.1, tmpName) c) ++
          [FsOp.flushOp, FsOp.fsyncOp] →
      execOps fs0 pre path = fs0 path := by
    intro pre hpre
    refine execOps_untouched path pre fs0 (fun op hop => ?_)
    have hmem := hpre.subset hop
    rcases mem_save_front hmem with rfl | ⟨c, rfl⟩ | rfl | rfl
    · exact hfresh
    · exact hfresh
    · exact fun h => h
    · exact fun h => h
  have hcreate : execOp fs0 (FsOp.create (path.1, tmpName)) (path.1, tmpName) =
      some "" := by simp [execOp]
  have hw := execOps_writes (path.1, tmpName) chunks
    (execOp fs0 (FsOp.create (path.1, tmpName))) "" hcreate
  have hfl : ∀ fs : Fs, execOps fs [FsOp.flushOp, FsOp.fsyncOp] = fs := fun fs => rfl
  have htmp : execOps fs0
      (FsOp.create (path.1, tmpName) ::
        chunks.map (fun c => FsOp.write (path.1, tmpName) c) ++
          [FsOp.flushOp, FsOp.fsyncOp]) (path.1, tmpName) =
      some (String.join chunks) := by
    rw [List.cons_append, execOps, execOps_append, hfl, hw]
    simp
  have hfull : execOps fs0 (saveStateOps path tmpName chunks) path =
      some (String.join chunks) := by
    rw [hshape, execOps_append]
    generalize hX : execOps fs0
      (FsOp.create (path.1, tmpName) ::
        chunks.map (fun c => FsOp.write (path.1, tmpName) c) ++
          [FsOp.flushOp, FsOp.fsyncOp]) = X
    rw [hX] at htmp
    simp [execOps, execOp, htmp]
  refine ⟨?_, hfull, hshape⟩
  intro pre hpre
  rw [hshape] at hpre
  rcases prefix_snoc_cases hpre with h | h
  · exact Or.inl (hfront_path pre h)
  · right
    rw [h, ← hshape]
    exact hfull

/-- Closed instance of save_state_atomic: on an initially empty
filesystem, saving to directory d, file f via temporary name t with the
serialisation split as two chunks installs the full concatenation at the
destination. -/
theorem save_state_atomic_check :
    execOps (fun _ => none)
        (saveStateOps ("d", "state.json") "tmp731" ["ab", "c"]) ("d", "state.json") =
      some (String.join ["ab", "c"]) :=
  (save_state_atomic ("d", "state.json") "tmp731" ["ab", "c"] (fun _ => none)
    (by decide)).2.1

/-- C4: the routing trichotomy.  For an entry that passes the eligibility
filters (JPEG extension, author match), has_coords without EXIF GPS
appends it to needs_exif only; EXIF GPS without coords appends its title
to needs_template only; both flags equal (both set or neither) changes
neither queue.  In every non-skipped case the title joins seen_titles. -/
theorem classifier_trichotomy (af : Option String) (st : ScanState)
    (seen : List String) (u : UploadInfo)
    (hjpeg : isJpegTitle u.title = true) (hauth : authorSkip af u = false) :
    (u.has_coords = true ∧ u.has_exif_gps = false →
      scanEntry af (st, seen) u =
        ({ st with needs_exif := st.needs_exif ++ [u] }, seen ++ [u.title])) ∧
    (u.has_exif_gps = true ∧ u.has_coords = false →
      scanEntry af (st, seen) u =
        ({ st with needs_template := st.needs_template ++ [u.title] },
          seen ++ [u.title])) ∧
    (u.has_coords = u.has_exif_gps →
      scanEntry af (st, seen) u = (st, seen ++ [u.title])) := by
  refine ⟨?_, ?_, ?_⟩
  · rintro ⟨h1, h2⟩
    simp [scanEntry, hjpeg, hauth, h1, h2]
  · rintro ⟨h1, h2⟩
    simp [scanEntry, hjpeg, hauth, h1, h2]
  · intro h
    cases hc : u.has_coords <;> cases hg : u.has_exif_gps <;>
      simp_all [scanEntry, hjpeg, hauth]

/-- Closed instance of classifier_trichotomy: the three-item scenario.
A (coords, no EXIF GPS) goes to needs_exif, B (EXIF GPS, no coords) goes
to needs_template, C (both) is dropped from both queues. -/
theorem classifier_trichotomy_check :
    scanEntry none ({}, []) { title := "a.jpg", has_coords := true, has_exif_gps := false } =
      ({ needs_exif := [{ title := "a.jpg", has_coords := true, has_exif_gps := false }] },
        ["a.jpg"]) ∧
    scanEntry none ({}, []) { title := "b.jpg", has_coords := false, has_exif_gps := true } =
      ({ needs_template := ["b.jpg"] }, ["b.jpg"]) ∧
    scanEntry none ({}, []) { title := "c.jpg", has_coords := true, has_exif_gps := true } =
      ({}, ["c.jpg"]) :=
  ⟨(classifier_trichotomy none {} [] _ (by decide) rfl).1 ⟨rfl, rfl⟩,
   (classifier_trichotomy none {} [] _ (by decide) rfl).2.1 ⟨rfl, rfl⟩,
   (classifier_trichotomy none {} [] _ (by decide) rfl).2.2 rfl⟩

/-- C5 is violated by the code: the seen set is seeded with the stripped
stored titles while list_uploads deduplicates the raw File:-prefixed log
titles against it, so an id already present in the queue is fetched and
appended again.  Starting from a duplicate-free state, one crawl session
leaves the same title twice in the union of the queues. -/
theorem dedup_violation :
    (dupState.needs_exif.map (fun u => u.title) ++ dupState.needs_template).Nodup ∧
    ((scanUserUploads dupFetcher none 1 dupState).2.1.needs_exif.map (fun u => u.title) ++
        (scanUserUploads dupFetcher none 1 dupState).2.1.needs_template) =
      ["X.jpg", "X.jpg"] ∧
    ¬ ((scanUserUploads dupFetcher none 1 dupState).2.1.needs_exif.map (fun u => u.title) ++
        (scanUserUploads dupFetcher none 1 dupState).2.1.needs_template).Nodup :=
  ⟨by decide, by decide, by decide⟩

/-! ## C7 and C10: checkpointing order and termination of the crawl loop -/
lemma crawlLoop_succ_shape (fetch : Fetcher) (af : Option String) (fuel : ℕ)
    (st : ScanState) (seen : List String) (cont : Option ContToken) :
    ∃ ups cont2 σ,
      fetch cont seen = (ups, cont2) ∧
      σ = { (processPage af st seen ups).1 with scan_continue := cont2 } ∧
      ((contFalsy cont2 || ups.isEmpty) = true ∧
          crawlLoop fetch af (fuel + 1) st seen cont =
            ([ScanEvent.fetch cont ups cont2, ScanEvent.save σ], σ, true) ∨
        (contFalsy cont2 || ups.isEmpty) = false ∧
          crawlLoop fetch af (fuel + 1) st seen cont =
            (ScanEvent.fetch cont ups cont2 :: ScanEvent.save σ ::
                (crawlLoop fetch af fuel σ (processPage af st seen ups).2 cont2).1,
              (crawlLoop fetch af fuel σ (processPage af st seen ups).2 cont2).2.1,
              (crawlLoop fetch af fuel σ (processPage af st seen ups).2 cont2).2.2)) := by
  refine ⟨(fetch cont seen).1, (fetch cont seen).2,
    { (processPage af st seen (fetch cont seen).1).1 with
        scan_continue := (fetch cont seen).2 }, rfl, rfl, ?_⟩
  by_cases hbrk : (contFalsy (fetch cont seen).2 || (fetch cont seen).1.isEmpty) = true
  · left
    refine ⟨hbrk, ?_⟩
    simp only [crawlLoop]
    rw [if_pos hbrk]
  · right
    refine ⟨by simpa using hbrk, ?_⟩
    simp only [crawlLoop]
    rw [if_neg hbrk]
    simp

/-- Every run of at least one iteration begins with the page fetch under
the threaded cursor, immediately followed by the checkpoint of the state
carrying the cursor that page returned. -/
lemma crawlLoop_head_succ (fetch : Fetcher) (af : Option String) (fuel : ℕ)
    (st : ScanState) (seen : List String) (cont : Option ContToken) :
    ∃ ups nxt σ rest,
      (crawlLoop fetch af (fuel + 1) st seen cont).1 =
        ScanEvent.fetch cont ups nxt :: ScanEvent.save σ :: rest ∧
      σ.scan_continue = nxt := by
  obtain ⟨ups, cont2, σ, hpage, hσ, hcase⟩ :=
    crawlLoop_succ_shape fetch af fuel st seen cont
  rcases hcase with ⟨_, heq⟩ | ⟨_, heq⟩
  · exact ⟨ups, cont2, σ, [], by rw [heq], by rw [hσ]⟩
  · exact ⟨ups, cont2, σ, _, by rw [heq], by rw [hσ]⟩

lemma crawlLoop_zero_not_done (fetch : Fetcher) (af : Option String)
    (st : ScanState) (seen : List String) (cont : Option ContToken) :
    (crawlLoop fetch af 0 st seen cont).2.2 = false := rfl

/-- C7: in every iteration of a finished crawl loop, the page fetch is
immediately followed by a save of the state whose continuation cursor was
updated to the cursor that page returned; every later page fetch is
immediately preceded by exactly that save, whose persisted cursor equals
the cursor the next fetch is issued under (the state is persisted before
the next page is fetched); and an iteration is the last one exactly when
the gateway returned a falsy continuation token or an empty page. -/
theorem crawl_persists_and_terminates (fetch : Fetcher) (af : Option String)
    (fuel : ℕ) (st : ScanState) (seen : List String) (cont : Option ContToken)
    (hdone : (crawlLoop fetch af fuel st seen cont).2.2 = true) :
    (∀ pre c ups nxt e suf,
        (crawlLoop fetch af fuel st seen cont).1 =
          pre ++ ScanEvent.fetch c ups nxt :: e :: suf →
        ∃ σ, e = ScanEvent.save σ ∧ σ.scan_continue = nxt) ∧
    (∀ pre e c ups nxt suf,
        (crawlLoop fetch af fuel st seen cont).1 =
          pre ++ e :: ScanEvent.fetch c ups nxt :: suf →
        ∃ σ, e = ScanEvent.save σ ∧ σ.scan_continue = c) ∧
    (∀ pre c ups nxt σ suf,
        (crawlLoop fetch af fuel st seen cont).1 =
          pre ++ ScanEvent.fetch c ups nxt :: ScanEvent.save σ :: suf →
        (suf = [] ↔ (contFalsy nxt = true ∨ ups = []))) := by
  induction fuel generalizing st seen cont with
  | zero => rw [crawlLoop_zero_not_done] at hdone; cases hdone
  | succ fuel ih =>
    obtain ⟨ups0, cont2, σ0, hpage, hσ, hcase⟩ :=
      crawlLoop_succ_shape fetch af fuel st seen cont
    rcases hcase with ⟨hbrk, heq⟩ | ⟨hbrk, heq⟩
    · rw [heq]
      refine ⟨?_, ?_, ?_⟩
      · intro pre c ups nxt e suf h
        cases pre with
        | nil =>
          simp only [List.nil_append, List.cons.injEq] at h
          obtain ⟨h1, h2, h3⟩ := h
          injection h1 with hc hu hn
          exact ⟨σ0, h2.symm, by rw [hσ, hn]⟩
        | cons x pre =>
          simp only [List.cons_append, List.cons.injEq] at h
          obtain ⟨hx, h⟩ := h
          cases pre with
          | nil =>
            simp only [List.nil_append, List.cons.injEq] at h
            exact absurd h.1 (by simp)
          | cons y pre =>
            simp only [List.cons_append, List.cons.injEq] at h
            exact absurd h.2 (by simp)
      · intro pre e c ups nxt suf h
        cases pre with
        | nil =>
          simp only [List.nil_append, List.cons.injEq] at h
          exact absurd h.2.1 (by simp)
        | cons x pre =>
          simp only [List.cons_append, List.cons.injEq] at h
          obtain ⟨hx, h⟩ := h
          cases pre with
          | nil =>
            simp only [List.nil_append, List.cons.injEq] at h
            exact absurd h.2 (by simp)
          | cons y pre =>
            simp only [List.cons_append, List.cons.injEq] at h
            exact absurd h.2 (by simp)
      · intro pre c ups nxt σ suf h
        cases pre with
        | nil =>
          simp only [List.nil_append, List.cons.injEq] at h
          obtain ⟨h1, h2, h3⟩ := h
          injection h1 with hc hu hn
          subst hu hn
          constructor
          · intro _
            rcases Bool.or_eq_true_iff.mp hbrk with hb | hb
            · exact Or.inl hb
            · exact Or.inr (by simpa using hb)
          · intro _
            exact h3.symm
        | cons x pre =>
          simp only [List.cons_append, List.cons.injEq] at h
          obtain ⟨hx, h⟩ := h
          cases pre with
          | nil =>
            simp only [List.nil_append, List.cons.injEq] at h
            exact absurd h.1 (by simp)
          | cons y pre =>
            simp only [List.cons_append, List.cons.injEq] at h
            exact absurd h.2 (by simp)
    · rw [heq] at hdone ⊢
      have hdone2 : (crawlLoop fetch af fuel σ0 (processPage af st seen ups0).2 cont2).2.2 =
          true := hdone
      obtain ⟨IH1, IH2, IH3⟩ := ih σ0 (processPage af st seen ups0).2 cont2 hdone2
      have hfuel : fuel ≠ 0 := by
        intro h0
        rw [h0, crawlLoop_zero_not_done] at hdone2
        cases hdone2
      obtain ⟨g, rfl⟩ := Nat.exists_eq_succ_of_ne_zero hfuel
      obtain ⟨ups1, nxt1, σ1, rest1, htail, hσ1⟩ :=
        crawlLoop_head_succ fetch af g σ0 (processPage af st seen ups0).2 cont2
      refine ⟨?_, ?_, ?_⟩
      · intro pre c ups nxt e suf h
        cases pre with
        | nil =>
          simp only [List.nil_append, List.cons.injEq] at h
          obtain ⟨h1, h2, h3⟩ := h
          injection h1 with hc hu hn
          exact ⟨σ0, h2.symm, by rw [hσ, hn]⟩
        | cons x pre =>
          simp only [List.cons_append, List.cons.injEq] at h
          obtain ⟨hx, h⟩ := h
          cases pre with
          | nil =>
            simp only [List.nil_append, List.cons.injEq] at h
            exact absurd h.1 (by simp)
          | cons y pre =>
            simp only [List.cons_append, List.cons.injEq] at h
            exact IH1 pre c ups nxt e suf h.2
      · intro pre e c ups nxt suf h
        cases pre with
        | nil =>
          simp only [List.nil_append, List.cons.injEq] at h
          exact absurd h.2.1 (by simp)
        | cons x pre =>
          simp only [List.cons_append, List.cons.injEq] at h
          obtain ⟨hx, h⟩ := h
          cases pre with
          | nil =>
            simp only [List.nil_append, List.cons.injEq] at h
            obtain ⟨he, h⟩ := h
            rw [htail] at h
            have h1 : ScanEvent.fetch cont2 ups1 nxt1 = ScanEvent.fetch c ups nxt :=
              (List.cons.injEq _ _ _ _).mp h |>.1
            injection h1 with hc hu hn
            exact ⟨σ0, he.symm, by rw [hσ, hc]⟩
          | cons y pre =>
            simp only [List.cons_append, List.cons.injEq] at h
            exact IH2 pre e c ups nxt suf h.2
      · intro pre c ups nxt σ suf h
        cases pre with
        | nil =>
          simp only [List.nil_append, List.cons.injEq] at h
          obtain ⟨h1, h2, h3⟩ := h
          injection h1 with hc hu hn
          subst hu hn
          constructor
          · intro hsuf
            rw [← h3, htail] at hsuf
            cases hsuf
          · intro hor
            exfalso
            rcases hor with hb | hb
            · rw [hb] at hbrk
              simp at hbrk
            · rw [hb] at hbrk
              simp at hbrk
        | cons x pre =>
          simp only [List.cons_append, List.cons.injEq] at h
          obtain ⟨hx, h⟩ := h
          cases pre with
          | nil =>
            simp only [List.nil_append, List.cons.injEq] at h
            exact absurd h.1 (by simp)
          | cons y pre =>
            simp only [List.cons_append, List.cons.injEq] at h
            exact IH3 pre c ups nxt σ suf h.2

/-- Closed instance of crawl_persists_and_terminates: in the two-page
run, the event preceding the second page fetch is the save of the state
whose persisted cursor is exactly the token that second fetch is issued
under. -/
theorem crawl_persists_and_terminates_check :
    ∃ σ : ScanState,
      ScanEvent.save
          { needs_exif := [{ title := "a.jpg", has_coords := true, has_exif_gps := false }]
            needs_template := []
            scan_continue := some [("lecontinue", "1")] } = ScanEvent.save σ ∧
      σ.scan_continue = some [("lecontinue", "1")] :=
  (crawl_persists_and_terminates twoPageFetcher none 2 {} [] none (by decide)).2.1
    [ScanEvent.fetch none
        [{ title := "a.jpg", has_coords := true, has_exif_gps := false }]
        (some [("lecontinue", "1")])]
    (ScanEvent.save
      { needs_exif := [{ title := "a.jpg", has_coords := true, has_exif_gps := false }]
        needs_template := []
        scan_continue := some [("lecontinue", "1")] })
    (some [("lecontinue", "1")]) [] none
    [ScanEvent.save
      { needs_exif := [{ title := "a.jpg", has_coords := true, has_exif_gps := false }]
        needs_template := []
        scan_continue := none }]
    (by decide)

/-- C10: when the cleaned needs_exif queue and needs_template are both
non-empty and no continuation is pending, scan_user_uploads returns at
once, issuing no gateway call, with the input state changed only by
dropping needs_exif entries whose has_coords flag is false; but when
either queue is empty (and the previous scan had completed, cursor None),
the crawl loop runs and the first event is a page fetch issued from the
start (cursor None), a full rescan. -/
theorem resume_guard (fetch : Fetcher) (af : Option String) (fuel : ℕ)
    (st : ScanState) (hcont : st.scan_continue = none) :
    (st.needs_exif.filter (fun u => u.has_coords) ≠ [] → st.needs_template ≠ [] →
      scanUserUploads fetch af fuel st =
        ([], { st with needs_exif := st.needs_exif.filter (fun u => u.has_coords) },
          true)) ∧
    ((st.needs_exif.filter (fun u => u.has_coords) = [] ∨ st.needs_template = []) →
      fuel ≠ 0 →
      ∃ ups nxt rest, (scanUserUploads fetch af fuel st).1 =
        ScanEvent.fetch none ups nxt :: rest) := by
  constructor
  · intro h1 h2
    simp [scanUserUploads, hcont, h1, h2, contFalsy]
  · intro hor hf
    obtain ⟨g, rfl⟩ := Nat.exists_eq_succ_of_ne_zero hf
    have hguard : ¬ (st.needs_exif.filter (fun u => u.has_coords) ≠ [] ∧
        st.needs_template ≠ [] ∧ contFalsy st.scan_continue = true) := by
      rcases hor with hb | hb
      · intro hcon; exact hcon.1 hb
      · intro hcon; exact hcon.2.1 hb
    obtain ⟨ups, nxt, σ, rest, htr, _⟩ :=
      crawlLoop_head_succ fetch af g
        { st with needs_exif := st.needs_exif.filter (fun u => u.has_coords) }
        (st.needs_exif.map (fun u => u.title) ++ st.needs_template) st.scan_continue
    refine ⟨ups, nxt, ScanEvent.save σ :: rest, ?_⟩
    rw [scanUserUploads]
    simp only [hcont] at hguard htr ⊢
    rw [if_neg hguard]
    exact htr

/-- Closed instance of resume_guard: a state with both queues non-empty
and no pending cursor is returned untouched apart from the has_coords
filter and no event is emitted, while the empty state (empty queues, no
cursor) triggers a fresh fetch from the start. -/
theorem resume_guard_check :
    scanUserUploads (fun _ _ => ([], none)) none 0
        { needs_exif := [{ title := "a.jpg", has_coords := true, has_exif_gps := false }]
          needs_template := ["b.jpg"] } =
      ([], { needs_exif :=
              ([{ title := "a.jpg", has_coords := true, has_exif_gps := false }] :
                List UploadInfo).filter (fun u => u.has_coords)
             needs_template := ["b.jpg"] }, true) ∧
    (∃ ups nxt rest,
      (scanUserUploads (fun _ _ => ([], none)) none 1 {}).1 =
        ScanEvent.fetch none ups nxt :: rest) :=
  ⟨(resume_guard (fun _ _ => ([], none)) none 0
      { needs_exif := [{ title := "a.jpg", has_coords := true, has_exif_gps := false }]
        needs_template := ["b.jpg"] } rfl).1 (by decide) (by decide),
   (resume_guard (fun _ _ => ([], none)) none 1 {} rfl).2 (Or.inl rfl) one_ne_zero⟩

/-- One loop iteration over an item present in the queue always produces
an intermediate result whose queue is the old queue with one occurrence of
the item erased and whose iteration counter went up by one; the loop then
either stops there (budget exhausted) or continues from it. -/
lemma processGo_cons (env : ProcEnv) (u : UploadInfo) (rest : List UploadInfo)
    (idx : ℕ) (r : ProcResult) (hmem : u ∈ r.queue) :
    ∃ r' : ProcResult, r'.queue = r.queue.erase u ∧ r'.processed = r.processed + 1 ∧
      (processGo env (u :: rest) idx r = r' ∨
        processGo env (u :: rest) idx r = processGo env rest (idx + 1) r') := by
  cases hc : u.has_coords with
  | false =>
    refine ⟨{ r with
      queue := r.queue.erase u
      skipped_no_gps := r.skipped_no_gps + 1
      processed := r.processed + 1 }, rfl, rfl, Or.inr ?_⟩
    simp [processGo, hc]
  | true =>
    cases hg : u.has_exif_gps with
    | true =>
      refine ⟨{ r with
        queue := r.queue.erase u
        skipped_has_gps := r.skipped_has_gps + 1
        processed := r.processed + 1 }, rfl, rfl, Or.inr ?_⟩
      simp [processGo, hc, hg]
    | false =>
      cases hd : env.download idx with
      | false =>
        refine ⟨{ r with
        queue := r.queue.erase u
        errors := r.errors + 1
        processed := r.processed + 1 }, rfl, rfl, ?_⟩
        by_cases he : r.edits = 0
        · exact Or.inl (by simp [processGo, hc, hg, hd, hmem, he])
        · exact Or.inr (by simp [processGo, hc, hg, hd, hmem, he])
      | true =>
        cases hm : env.mutate idx with
        | ok =>
          refine ⟨{ r with
        queue := r.queue.erase u
        updated := r.updated + 1
        edits := r.edits - 1
        processed := r.processed + 1 }, rfl, rfl, ?_⟩
          by_cases he : r.edits - 1 = 0
          · exact Or.inl (by simp [processGo, hc, hg, hd, hm, hmem, he])
          · exact Or.inr (by simp [processGo, hc, hg, hd, hm, hmem, he])
        | err =>
          refine ⟨{ r with
              queue := r.queue.erase u
              errors := r.errors + 1
              processed := r.processed + 1 }, rfl, rfl, ?_⟩
          by_cases he : r.edits = 0
          · exact Or.inl (by simp [processGo, hc, hg, hd, hm, hmem, he])
          · exact Or.inr (by simp [processGo, hc, hg, hd, hm, hmem, he])

lemma processGo_retires (env : ProcEnv) :
    ∀ (images : List UploadInfo) (idx : ℕ) (r : ProcResult),
      List.Subperm images r.queue →
      (processGo env images idx r).queue.length + (processGo env images idx r).processed =
        r.queue.length + r.processed := by
  intro images
  induction images with
  | nil => intro idx r _; rfl
  | cons u rest ih =>
    intro idx r hsub
    have hmem : u ∈ r.queue := hsub.subset (List.mem_cons_self u rest)
    have hrest : List.Subperm rest (r.queue.erase u) := by
      have h := List.Subperm.erase u hsub
      rwa [List.erase_cons_head] at h
    have hpos : 0 < r.queue.length := List.length_pos_of_mem hmem
    have hlen : (r.queue.erase u).length = r.queue.length - 1 :=
      List.length_erase_of_mem hmem
    obtain ⟨r', hq, hp, hcase⟩ := processGo_cons env u rest idx r hmem
    rcases hcase with heq | heq
    · rw [heq, hq, hp]
      omega
    · rw [heq]
      have hih := ih (idx + 1) r' (by rw [hq]; exact hrest)
      rw [hih, hq, hp]
      omega

/-- C3: queue retirement.  When the shuffled snapshot is a permutation of
the queue, every loop iteration of process_needs_exif retires exactly one
queue entry, whatever its outcome (skip without coords, skip with EXIF
GPS already present, download failure, successful mutation or caught
mutation error): after the run the queue length plus the number of
iterations processed equals the starting queue length — the queue shrank
by exactly the number of items processed, nothing leaked and nothing was
removed twice. -/
theorem needs_exif_retired_each_iteration (env : ProcEnv) (st : ScanState) (count : ℤ)
    (hperm : env.shuffled.Perm st.needs_exif) :
    (processNeedsExif env st count).queue.length +
        (processNeedsExif env st count).processed =
      st.needs_exif.length := by
  have h := processGo_retires env env.shuffled 1
    { queue := st.needs_exif, edits := count } hperm.subperm
  simpa [processNeedsExif] using h

/-- One loop iteration leaves the sum of the remaining edit budget and the
success counter unchanged: the budget is decremented exactly when updated
is incremented (processor.py lines 75-76), and by skips and errors not at
all. -/
lemma processGo_cons_budget (env : ProcEnv) (u : UploadInfo) (rest : List UploadInfo)
    (idx : ℕ) (r : ProcResult) :
    ∃ r' : ProcResult, (r'.edits + r'.updated : ℤ) = r.edits + r.updated ∧
      (processGo env (u :: rest) idx r = r' ∨
        processGo env (u :: rest) idx r = processGo env rest (idx + 1) r') := by
  cases hc : u.has_coords with
  | false =>
    refine ⟨{ r with
      queue := r.queue.erase u
      skipped_no_gps := r.skipped_no_gps + 1
      processed := r.processed + 1 }, rfl, Or.inr ?_⟩
    simp [processGo, hc]
  | true =>
    cases hg : u.has_exif_gps with
    | true =>
      refine ⟨{ r with
        queue := r.queue.erase u
        skipped_has_gps := r.skipped_has_gps + 1
        processed := r.processed + 1 }, rfl, Or.inr ?_⟩
      simp [processGo, hc, hg]
    | false =>
      cases hd : env.download idx with
      | false =>
        refine ⟨{ r with
            queue := if u ∈ r.queue then r.queue.erase u else r.queue
            errors := r.errors + 1
            processed := r.processed + 1 }, rfl, ?_⟩
        by_cases he : r.edits = 0
        · exact Or.inl (by simp [processGo, hc, hg, hd, he])
        · exact Or.inr (by simp [processGo, hc, hg, hd, he])
      | true =>
        cases hm : env.mutate idx with
        | ok =>
          refine ⟨{ r with
              queue := if u ∈ r.queue then r.queue.erase u else r.queue
              updated := r.updated + 1
              edits := r.edits - 1
              processed := r.processed + 1 }, by push_cast; ring, ?_⟩
          by_cases he : r.edits - 1 = 0
          · exact Or.inl (by simp [processGo, hc, hg, hd, hm, he])
          · exact Or.inr (by simp [processGo, hc, hg, hd, hm, he])
        | err =>
          refine ⟨{ r with
              queue := if u ∈ r.queue then r.queue.erase u else r.queue
              errors := r.errors + 1
              processed := r.processed + 1 }, rfl, ?_⟩
          by_cases he : r.edits = 0
          · exact Or.inl (by simp [processGo, hc, hg, hd, hm, he])
          · exact Or.inr (by simp [processGo, hc, hg, hd, hm, he])

lemma processGo_edits (env : ProcEnv) :
    ∀ (images : List UploadInfo) (idx : ℕ) (r : ProcResult),
      ((processGo env images idx r).edits + (processGo env images idx r).updated : ℤ) =
        r.edits + r.updated := by
  intro images
  induction images with
  | nil => intro idx r; rfl
  | cons u rest ih =>
    intro idx r
    obtain ⟨r', hsum, hcase⟩ := processGo_cons_budget env u rest idx r
    rcases hcase with heq | heq
    · rw [heq, hsum]
    · rw [heq, ih (idx + 1) r', hsum]

/-- C8: the edit budget.  With count = 1 and a queue of 5 eligible items
(page coordinates present, no embedded GPS, downloads and mutations
succeeding), process_needs_exif records exactly 1 successful mutation,
stops after that single iteration and leaves the other 4 items queued;
and in every run the remaining budget equals the initial count minus the
number of successful mutations — skips and errors never consume it. -/
theorem budget_stops_early (env : ProcEnv) (st : ScanState)
    (hperm : env.shuffled.Perm st.needs_exif)
    (helig : ∀ u ∈ st.needs_exif, u.has_coords = true ∧ u.has_exif_gps = false)
    (hlen : st.needs_exif.length = 5)
    (hdl : ∀ i, env.download i = true) (hmut : ∀ i, env.mutate i = MutResult.ok) :
    (processNeedsExif env st 1).updated = 1 ∧
    (processNeedsExif env st 1).queue.length = 4 ∧
    (processNeedsExif env st 1).processed = 1 ∧
    (∀ (env2 : ProcEnv) (st2 : ScanState) (count2 : ℤ),
      (processNeedsExif env2 st2 count2).edits =
        count2 - (processNeedsExif env2 st2 count2).updated) := by
  have hgen : ∀ (env2 : ProcEnv) (st2 : ScanState) (count2 : ℤ),
      (processNeedsExif env2 st2 count2).edits =
        count2 - (processNeedsExif env2 st2 count2).updated := by
    intro env2 st2 count2
    have h := processGo_edits env2 env2.shuffled 1
      { queue := st2.needs_exif, edits := count2 }
    simp only [add_zero] at h
    rw [processNeedsExif]
    omega
  cases henv : env.shuffled with
  | nil =>
    exfalso
    have hl := hperm.length_eq
    rw [henv, hlen] at hl
    simp at hl
  | cons u rest =>
    have humem : u ∈ st.needs_exif :=
      hperm.mem_iff.mp (by rw [henv]; exact List.mem_cons_self u rest)
    obtain ⟨hc, hg⟩ := helig u humem
    have hrun : processNeedsExif env st 1 =
        { queue := st.needs_exif.erase u
          updated := 1
          edits := 0
          processed := 1 } := by
      rw [processNeedsExif, henv]
      simp [processGo, hc, hg, hdl 1, hmut 1, humem]
    rw [hrun]
    refine ⟨rfl, ?_, rfl, hgen⟩
    simp [List.length_erase_of_mem humem, hlen]

/-- Closed instance of needs_exif_retired_each_iteration on the two-item
run. -/
theorem needs_exif_retired_check :
    (processNeedsExif retireEnv retireState 5).queue.length +
        (processNeedsExif retireEnv retireState 5).processed =
      retireState.needs_exif.length :=
  needs_exif_retired_each_iteration retireEnv retireState 5 (by decide)

/-- Closed instance of budget_stops_early on the five-item run. -/
theorem budget_stops_early_check :
    (processNeedsExif budgetEnv budgetState 1).updated = 1 ∧
    (processNeedsExif budgetEnv budgetState 1).queue.length = 4 ∧
    (processNeedsExif budgetEnv budgetState 1).processed = 1 ∧
    (processNeedsExif budgetEnv budgetState 7).edits =
      7 - (processNeedsExif budgetEnv budgetState 7).updated := by
  have h := budget_stops_early budgetEnv budgetState (by decide) (by decide)
    (by decide) (fun i => rfl) (fun i => rfl)
  exact ⟨h.1, h.2.1, h.2.2.1, h.2.2.2 budgetEnv budgetState 7⟩

/-- C6 as stated is false: with max_edits_per_min = 1 the 60-second
window ending at time 0 contains 2 mutation actions.  The limiter only
throttles after appending the timestamp that follows a mutation, so the
first max_edits_per_min + 1 eligible iterations all mutate before any
rate sleep happens. -/
theorem rate_window_cex :
    1 < winCount (mutTimes (procTimes 1 burstIters 0 [])) 0 := by
  have h1 : procTimes 1 burstIters 0 [] = [(some 0, 0), (some 0, 60)] := by
    norm_num [burstIters, procTimes, rateLimitSleep, rlsKept, rlsAfterSleep,
      recentP, max_def]
  rw [h1]
  norm_num [mutTimes, winCount, winP, List.countP_cons, List.filterMap_cons]

lemma now_le_rlsAfterSleep (maxE : ℕ) (slack now : ℚ) (kept : List ℚ)
    (hslack : 0 ≤ slack) : now ≤ rlsAfterSleep maxE slack now kept := by
  rw [rlsAfterSleep]
  split
  · have h1 : (1 : ℚ) ≤ max (60 - (now - kept.headI)) 1 := le_max_right _ _
    linarith
  · exact le_refl now

lemma head_sixty_le_rlsAfterSleep (maxE : ℕ) (slack now : ℚ) (kept : List ℚ)
    (hslack : 0 ≤ slack) (hfull : maxE ≤ kept.length) :
    kept.headI + 60 ≤ rlsAfterSleep maxE slack now kept := by
  rw [rlsAfterSleep, if_pos hfull]
  have h1 : (60 - (now - kept.headI)) ≤ max (60 - (now - kept.headI)) 1 := le_max_left _ _
  linarith

lemma filter_sublist_filter {α : Type} {p q : α → Bool} :
    ∀ (l : List α), (∀ a ∈ l, p a = true → q a = true) →
      List.Sublist (List.filter p l) (List.filter q l) := by
  intro l
  induction l with
  | nil => intro _; simp
  | cons a l ih =>
    intro h
    have hl := ih (fun b hb hpb => h b (List.mem_cons_of_mem a hb) hpb)
    by_cases hp : p a = true
    · have hq := h a (List.mem_cons_self a l) hp
      rw [List.filter_cons, List.filter_cons, if_pos hp, if_pos hq]
      exact hl.cons₂ a
    · rw [List.filter_cons, if_neg hp]
      by_cases hq : q a = true
      · rw [List.filter_cons, if_pos hq]
        exact hl.cons a
      · rw [List.filter_cons, if_neg hq]
        exact hl

lemma subperm_append_both {α : Type} {l₁ l₂ r₁ r₂ : List α}
    (h₁ : List.Subperm l₁ l₂) (h₂ : List.Subperm r₁ r₂) :
    List.Subperm (l₁ ++ r₁) (l₂ ++ r₂) := by
  obtain ⟨w₁, hp₁, hs₁⟩ := h₁
  obtain ⟨w₂, hp₂, hs₂⟩ := h₂
  exact ⟨w₁ ++ w₂, hp₁.append hp₂, hs₁.append hs₂⟩

lemma procTimes_clock_le (maxE : ℕ) :
    ∀ (iters : List TIter) (clock : ℚ) (stamps : List ℚ),
      (∀ it ∈ iters, 0 ≤ it.preWork ∧ 0 ≤ it.postWork ∧ 0 ≤ it.slack ∧ 0 ≤ it.jit) →
      ∀ p ∈ procTimes maxE iters clock stamps,
        clock ≤ p.2 ∧ ∀ m, p.1 = some m → clock ≤ m ∧ m ≤ p.2 := by
  intro iters
  induction iters with
  | nil => intro clock stamps hnn p hp; simp [procTimes] at hp
  | cons it rest ih =>
    intro clock stamps hnn p hp
    obtain ⟨hpre, hpost, hslack, hjit⟩ := hnn it (List.mem_cons_self it rest)
    have hstep : procTimes maxE (it :: rest) clock stamps =
        ((if it.isMut then some (clock + it.preWork) else none),
          rlsAfterSleep maxE it.slack (clock + it.preWork + it.postWork)
            (rlsKept (clock + it.preWork + it.postWork) stamps)) ::
          procTimes maxE rest
            (rlsAfterSleep maxE it.slack (clock + it.preWork + it.postWork)
                (rlsKept (clock + it.preWork + it.postWork) stamps) + it.jit)
            (rlsKept (clock + it.preWork + it.postWork) stamps ++
              [rlsAfterSleep maxE it.slack (clock + it.preWork + it.postWork)
                (rlsKept (clock + it.preWork + it.postWork) stamps)]) := rfl
    rw [hstep] at hp
    have hna : clock + it.preWork + it.postWork ≤
        rlsAfterSleep maxE it.slack (clock + it.preWork + it.postWork)
          (rlsKept (clock + it.preWork + it.postWork) stamps) :=
      now_le_rlsAfterSleep _ _ _ _ hslack
    rcases List.mem_cons.mp hp with rfl | hmem
    · constructor
      · simp only
        linarith
      · intro m hm
        cases hMut : it.isMut with
        | true =>
          rw [hMut] at hm
          simp only [if_true] at hm
          injection hm with hm2
          rw [← hm2]
          constructor
          · linarith
          · simp only
            linarith
        | false =>
          rw [hMut] at hm
          simp at hm
    · have hrec := ih _ _ (fun i hi => hnn i (List.mem_cons_of_mem it hi)) p hmem
      have hc2 : clock ≤
          rlsAfterSleep maxE it.slack (clock + it.preWork + it.postWork)
            (rlsKept (clock + it.preWork + it.postWork) stamps) + it.jit := by
        linarith
      refine ⟨le_trans hc2 hrec.1, fun m hm => ?_⟩
      obtain ⟨h1, h2⟩ := hrec.2 m hm
      exact ⟨le_trans hc2 h1, h2⟩

/-- In any run, a 60-second window holds at most one more mutation than
recorded timestamps: each mutation happens before the timestamp its own
iteration appends, and after the previous iteration appended its own. -/
lemma mutWin_le_stampWin (maxE : ℕ) :
    ∀ (iters : List TIter) (clock : ℚ) (stamps : List ℚ),
      (∀ it ∈ iters, 0 ≤ it.preWork ∧ 0 ≤ it.postWork ∧ 0 ≤ it.slack ∧ 0 ≤ it.jit) →
      ∀ x, winCount (mutTimes (procTimes maxE iters clock stamps)) x ≤
        winCount (stampTimes (procTimes maxE iters clock stamps)) x + 1 := by
  intro iters
  induction iters with
  | nil =>
    intro clock stamps hnn x
    simp [procTimes, mutTimes, stampTimes, winCount]
  | cons it rest ih =>
    intro clock stamps hnn x
    obtain ⟨hpre, hpost, hslack, hjit⟩ := hnn it (List.mem_cons_self it rest)
    have hnn2 : ∀ i ∈ rest, 0 ≤ i.preWork ∧ 0 ≤ i.postWork ∧ 0 ≤ i.slack ∧ 0 ≤ i.jit :=
      fun i hi => hnn i (List.mem_cons_of_mem it hi)
    have hstep : procTimes maxE (it :: rest) clock stamps =
        ((if it.isMut then some (clock + it.preWork) else none),
          rlsAfterSleep maxE it.slack (clock + it.preWork + it.postWork)
            (rlsKept (clock + it.preWork + it.postWork) stamps)) ::
          procTimes maxE rest
            (rlsAfterSleep maxE it.slack (clock + it.preWork + it.postWork)
                (rlsKept (clock + it.preWork + it.postWork) stamps) + it.jit)
            (rlsKept (clock + it.preWork + it.postWork) stamps ++
              [rlsAfterSleep maxE it.slack (clock + it.preWork + it.postWork)
                (rlsKept (clock + it.preWork + it.postWork) stamps)]) := rfl
    rw [hstep]
    set a := rlsAfterSleep maxE it.slack (clock + it.preWork + it.postWork)
      (rlsKept (clock + it.preWork + it.postWork) stamps) with haeq
    set tail := procTimes maxE rest (a + it.jit)
      (rlsKept (clock + it.preWork + it.postWork) stamps ++ [a]) with htaileq
    have hma : clock + it.preWork ≤ a := by
      have := now_le_rlsAfterSleep maxE it.slack (clock + it.preWork + it.postWork)
        (rlsKept (clock + it.preWork + it.postWork) stamps) hslack
      rw [← haeq] at this
      linarith
    have hihx := ih (a + it.jit)
      (rlsKept (clock + it.preWork + it.postWork) stamps ++ [a]) hnn2 x
    rw [← htaileq] at hihx
    have hstamp : stampTimes
        (((if it.isMut then some (clock + it.preWork) else none), a) :: tail) =
        a :: stampTimes tail := rfl
    rcases Bool.eq_false_or_eq_true it.isMut with hMut | hMut
    · have hmut : mutTimes
          (((if it.isMut then some (clock + it.preWork) else none), a) :: tail) =
          (clock + it.preWork) :: mutTimes tail := by
        rw [hMut]
        rfl
      rw [hmut, hstamp, winCount, winCount, List.countP_cons, List.countP_cons]
      rw [winCount, winCount] at hihx
      by_cases hwm : winP x (clock + it.preWork) = true
      · by_cases hwa : winP x a = true
        · simp only [hwm, hwa, if_true]
          omega
        · have hxa : x < a := by
            simp only [winP, Bool.and_eq_true, decide_eq_true_eq] at hwm hwa
            by_contra hcon
            push_neg at hcon
            exact hwa ⟨by linarith [hwm.1], hcon⟩
          have hmz : List.countP (winP x) (mutTimes tail) = 0 := by
            rw [List.countP_eq_zero]
            intro t ht
            obtain ⟨p, hp, hfp⟩ := List.mem_filterMap.mp ht
            have hlb := (procTimes_clock_le maxE rest (a + it.jit)
              (rlsKept (clock + it.preWork + it.postWork) stamps ++ [a]) hnn2 p
              (by rw [htaileq] at hp; exact hp)).2 t hfp
            simp only [winP, Bool.and_eq_true, decide_eq_true_eq, not_and]
            intro _
            have : a + it.jit ≤ t := hlb.1
            linarith
          have haz : List.countP (winP x) (stampTimes tail) = 0 := by
            rw [List.countP_eq_zero]
            intro t ht
            obtain ⟨p, hp, hfp⟩ := List.mem_map.mp ht
            have hlb := (procTimes_clock_le maxE rest (a + it.jit)
              (rlsKept (clock + it.preWork + it.postWork) stamps ++ [a]) hnn2 p
              (by rw [htaileq] at hp; exact hp)).1
            simp only [winP, Bool.and_eq_true, decide_eq_true_eq, not_and]
            intro _
            rw [← hfp]
            linarith
          have hwa2 : winP x a = false := by simpa using hwa
          simp only [hwm, hwa2, hmz, haz, if_true, if_false]
          omega
      · have hwm2 : winP x (clock + it.preWork) = false := by simpa using hwm
        simp only [hwm2, Bool.false_eq_true, if_false]
        omega

    · have hmut : mutTimes
          (((if it.isMut then some (clock + it.preWork) else none), a) :: tail) =
          mutTimes tail := by
        rw [hMut]
        rfl
      rw [hmut, hstamp, winCount, winCount, List.countP_cons]
      rw [winCount, winCount] at hihx
      omega

lemma winP_true_iff (x t : ℚ) : winP x t = true ↔ (x - 60 < t ∧ t ≤ x) := by
  simp [winP]

lemma recentP_true_iff (c t : ℚ) : recentP c t = true ↔ c - t < 60 := by
  simp [recentP]

/-- The recorded-timestamp window invariant: starting from an instant at
which edit_timestamps is sorted, within the clock, and is a
sub-collection of the already appended timestamps that still covers every
append in the live window, any 60-second window over all appended
timestamps (past plus the ones this run appends) holds at most
max_edits_per_min of them. -/
lemma procTimes_stamp_invariant (maxE : ℕ) (hE : 1 ≤ maxE) :
    ∀ (iters : List TIter),
      (∀ it ∈ iters, 0 ≤ it.preWork ∧ 0 ≤ it.postWork ∧ 0 ≤ it.slack ∧ 0 ≤ it.jit) →
      ∀ (clock : ℚ) (stamps past : List ℚ),
        List.Pairwise (· ≤ ·) stamps →
        (∀ t ∈ stamps, t ≤ clock) →
        (∀ t ∈ past, t ≤ clock) →
        (∀ y, winCount past y ≤ maxE) →
        List.Subperm (past.filter (recentP clock)) stamps →
        List.Subperm stamps past →
        ∀ x, winCount (past ++ stampTimes (procTimes maxE iters clock stamps)) x ≤
          maxE := by
  intro iters
  induction iters with
  | nil =>
    intro hnn clock stamps past h1 h2 h6 h3 h4 h5 x
    simpa [procTimes, stampTimes, winCount] using h3 x
  | cons it rest ih =>
    intro hnn clock stamps past h1 h2 h6 h3 h4 h5 x
    obtain ⟨hpre, hpost, hslack, hjit⟩ := hnn it (List.mem_cons_self it rest)
    have hnn2 : ∀ i ∈ rest, 0 ≤ i.preWork ∧ 0 ≤ i.postWork ∧ 0 ≤ i.slack ∧ 0 ≤ i.jit :=
      fun i hi => hnn i (List.mem_cons_of_mem it hi)
    set now := clock + it.preWork + it.postWork with hnoweq
    set kept := rlsKept now stamps with hkepteq
    set a := rlsAfterSleep maxE it.slack now kept with haeq
    have hstep : procTimes maxE (it :: rest) clock stamps =
        ((if it.isMut then some (clock + it.preWork) else none), a) ::
          procTimes maxE rest (a + it.jit) (kept ++ [a]) := rfl
    have hclock_now : clock ≤ now := by rw [hnoweq]; linarith
    have hnow_a : now ≤ a := by
      rw [haeq]; exact now_le_rlsAfterSleep _ _ _ _ hslack
    have hkept_stamps : List.Sublist kept stamps := by
      rw [hkepteq, rlsKept]; exact List.filter_sublist stamps
    -- every append still in the now-window is tracked in kept, with multiplicity
    have hA : List.Subperm (past.filter (winP now)) kept := by
      have step1 : List.Sublist (past.filter (winP now)) (past.filter (recentP clock)) :=
        filter_sublist_filter past (fun t ht hw => by
          rw [winP_true_iff] at hw
          rw [recentP_true_iff]
          linarith [hw.1])
      have step2 : List.Subperm (past.filter (winP now)) stamps :=
        step1.subperm.trans h4
      have step3 := List.Subperm.filter (winP now) step2
      have step4 : List.filter (winP now) (past.filter (winP now)) =
          past.filter (winP now) := by
        rw [List.filter_filter]
        exact List.filter_congr (fun t _ => Bool.and_self (winP now t))
      rw [step4] at step3
      have step5 : List.Sublist (stamps.filter (winP now)) kept := by
        rw [hkepteq, rlsKept]
        exact filter_sublist_filter stamps (fun t ht hw => by
          rw [winP_true_iff] at hw
          rw [recentP_true_iff]
          linarith [hw.1])
      exact step3.trans step5.subperm
    -- and conversely every kept stamp is an append in the now-window
    have hpastcongr : past.filter (recentP now) = past.filter (winP now) :=
      List.filter_congr (fun t ht => by
        have h1t : t ≤ now := le_trans (h6 t ht) hclock_now
        rw [recentP, winP, decide_eq_decide]
        constructor
        · intro hlt; exact ⟨by linarith, h1t⟩
        · intro hw; linarith [hw.1])
    have hB : List.Subperm kept (past.filter (winP now)) := by
      rw [hkepteq, rlsKept, ← hpastcongr]
      exact List.Subperm.filter (recentP now) h5
    have hkle : kept.length ≤ maxE := by
      have h1l := hB.length_le
      have h2l : (past.filter (winP now)).length = winCount past now := by
        rw [winCount, List.countP_eq_length_filter]
      rw [h2l] at h1l
      exact le_trans h1l (h3 now)
    -- the new window bound over past ++ [a]
    have h3x : ∀ y, winCount (past ++ [a]) y ≤ maxE := by
      intro y
      rw [winCount, List.countP_append]
      by_cases hwa : winP y a = true
      · have hya : y - 60 < a ∧ a ≤ y := (winP_true_iff y a).mp hwa
        have hbound : List.countP (winP y) past ≤ List.countP (winP a) past :=
          List.countP_mono_left (fun t ht hw => by
            rw [winP_true_iff] at hw
            have h1t : t ≤ clock := h6 t ht
            rw [winP_true_iff]
            exact ⟨by linarith [hw.1, hya.2], by linarith⟩)
        have hlt : List.countP (winP a) past < maxE := by
          by_cases hk : maxE ≤ kept.length
          · have hne : kept ≠ [] := by
              intro h0
              rw [h0] at hk
              simp at hk
              omega
            obtain ⟨h0, t0, hk0⟩ := List.exists_cons_of_ne_nil hne
            have hheadI : kept.headI = h0 := by rw [hk0]; rfl
            have hhead : h0 + 60 ≤ a := by
              rw [haeq]
              have := head_sixty_le_rlsAfterSleep maxE it.slack now kept hslack hk
              rw [hheadI] at this
              exact this
            have hh0mem : h0 ∈ kept := by rw [hk0]; exact List.mem_cons_self h0 t0
            have hh0recent : now - h0 < 60 := by
              have hmem2 : h0 ∈ stamps.filter (recentP now) := by
                rw [← rlsKept, ← hkepteq]; exact hh0mem
              exact (recentP_true_iff now h0).mp (List.of_mem_filter hmem2)
            have hsub1 : List.Sublist (past.filter (winP a))
                (past.filter (fun t => winP now t && decide (h0 < t))) :=
              filter_sublist_filter past (fun t ht hw => by
                rw [winP_true_iff] at hw
                have h1t : t ≤ clock := h6 t ht
                rw [Bool.and_eq_true, winP_true_iff, decide_eq_true_eq]
                refine ⟨⟨by linarith [hw.1], by linarith⟩, by linarith [hw.1]⟩)
            have heqff : past.filter (fun t => winP now t && decide (h0 < t)) =
                (past.filter (winP now)).filter (fun t => decide (h0 < t)) := by
              rw [List.filter_filter]
              exact List.filter_congr (fun t _ => (Bool.and_comm _ _))
            have hsub2 := List.Subperm.filter (fun t => decide (h0 < t)) hA
            have hklen : (kept.filter (fun t => decide (h0 < t))).length ≤
                kept.length - 1 := by
              rw [hk0, List.filter_cons]
              rw [if_neg (by simp)]
              have := List.length_filter_le (fun t => decide (h0 < t)) t0
              simp only [List.length_cons]
              omega
            have hchain : List.countP (winP a) past ≤ kept.length - 1 := by
              rw [List.countP_eq_length_filter]
              calc (past.filter (winP a)).length
                  ≤ (past.filter (fun t => winP now t && decide (h0 < t))).length :=
                    hsub1.length_le
                _ = ((past.filter (winP now)).filter (fun t => decide (h0 < t))).length := by
                    rw [heqff]
                _ ≤ (kept.filter (fun t => decide (h0 < t))).length := hsub2.length_le
                _ ≤ kept.length - 1 := hklen
            omega
          · push_neg at hk
            have hanow : a = now := by
              rw [haeq, rlsAfterSleep, if_neg (by omega)]
            have : List.countP (winP a) past ≤ kept.length := by
              rw [List.countP_eq_length_filter, hanow]
              exact hA.length_le
            omega
        have hone : List.countP (winP y) [a] = 1 := by
          simp [List.countP_cons, hwa]
        omega
      · have hzero : List.countP (winP y) [a] = 0 := by
          simp only [List.countP_cons, List.countP_nil]
          simp [hwa]
        have h3y := h3 y
        rw [winCount] at h3y
        omega
    -- the remaining invariants at the next iteration
    have h4x : List.Subperm ((past ++ [a]).filter (recentP (a + it.jit)))
        (kept ++ [a]) := by
      rw [List.filter_append]
      apply subperm_append_both
      · have hs1 : List.Sublist (past.filter (recentP (a + it.jit)))
            (past.filter (winP now)) :=
          filter_sublist_filter past (fun t ht hr => by
            rw [recentP_true_iff] at hr
            have h1t : t ≤ clock := h6 t ht
            rw [winP_true_iff]
            exact ⟨by linarith, by linarith⟩)
        exact hs1.subperm.trans hA
      · exact (List.filter_sublist _).subperm
    have h5x : List.Subperm (kept ++ [a]) (past ++ [a]) :=
      subperm_append_both (hkept_stamps.subperm.trans h5) (List.Subperm.refl _)
    have h1x : List.Pairwise (· ≤ ·) (kept ++ [a]) := by
      apply List.pairwise_append.mpr
      refine ⟨?_, ?_, ?_⟩
      · rw [hkepteq, rlsKept]
        exact List.Pairwise.filter (recentP now) h1
      · simp
      · intro t ht b hb
        simp only [List.mem_singleton] at hb
        subst hb
        have htm : t ∈ stamps := hkept_stamps.subset ht
        have := h2 t htm
        linarith
    have h2x : ∀ t ∈ kept ++ [a], t ≤ a + it.jit := by
      intro t ht
      rcases List.mem_append.mp ht with h | h
      · have := h2 t (hkept_stamps.subset h)
        linarith
      · simp only [List.mem_singleton] at h
        subst h
        linarith
    have h6x : ∀ t ∈ past ++ [a], t ≤ a + it.jit := by
      intro t ht
      rcases List.mem_append.mp ht with h | h
      · have := h6 t h
        linarith
      · simp only [List.mem_singleton] at h
        subst h
        linarith
    rw [hstep]
    have hassoc : past ++ stampTimes
        (((if it.isMut then some (clock + it.preWork) else none), a) ::
          procTimes maxE rest (a + it.jit) (kept ++ [a])) =
        (past ++ [a]) ++ stampTimes (procTimes maxE rest (a + it.jit) (kept ++ [a])) := by
      simp [stampTimes]
    rw [winCount, hassoc, ← winCount]
    exact ih hnn2 (a + it.jit) (kept ++ [a]) (past ++ [a]) h1x h2x h6x h3x h4x h5x x

/-- C6 amended: rate_limit_sleep drops timestamps older than 60 seconds,
sleeps until the oldest window entry expires (at least 1 second) when the
window already holds max_edits_per_min entries, appends the current
timestamp, and then sleeps the jitter drawn from
[base_sleep*0.5, base_sleep*1.5].  Consequently the recorded timestamps
never exceed max_edits_per_min per 60-second sliding window, and the
mutation actions issued never exceed max_edits_per_min + 1 per 60-second
sliding window: the bound for mutations carries the extra 1 because the
limiter throttles only after the mutation of its own iteration, and the
burst run shows max_edits_per_min + 1 is reached. -/
theorem rate_window_amended (maxE : ℕ) (base : ℚ) (iters : List TIter) (c0 : ℚ)
    (hE : 1 ≤ maxE) (hbase : 0 ≤ base)
    (hwork : ∀ it ∈ iters, 0 ≤ it.preWork ∧ 0 ≤ it.postWork ∧ 0 ≤ it.slack)
    (hjit : ∀ it ∈ iters, base * (1 / 2) ≤ it.jit ∧ it.jit ≤ base * (3 / 2)) :
    ∀ x : ℚ,
      winCount (stampTimes (procTimes maxE iters c0 [])) x ≤ maxE ∧
      winCount (mutTimes (procTimes maxE iters c0 [])) x ≤ maxE + 1 := by
  have hnn : ∀ it ∈ iters,
      0 ≤ it.preWork ∧ 0 ≤ it.postWork ∧ 0 ≤ it.slack ∧ 0 ≤ it.jit := by
    intro it hi
    obtain ⟨h1, h2, h3⟩ := hwork it hi
    obtain ⟨h4, _⟩ := hjit it hi
    exact ⟨h1, h2, h3, by linarith⟩
  intro x
  have hstamp : winCount (stampTimes (procTimes maxE iters c0 [])) x ≤ maxE := by
    have h := procTimes_stamp_invariant maxE hE iters hnn c0 [] []
      List.Pairwise.nil (fun t ht => absurd ht (List.not_mem_nil t))
      (fun t ht => absurd ht (List.not_mem_nil t))
      (fun y => by simp [winCount]) (List.Subperm.refl []) (List.Subperm.refl []) x
    simpa [winCount] using h
  have hmut := mutWin_le_stampWin maxE iters c0 [] hnn x
  exact ⟨hstamp, by omega⟩

/-- Closed instance of rate_window_amended on the burst run: the window
ending at time 0 holds at most 1 recorded timestamp and at most 2
mutations (and it does hold exactly 2). -/
theorem rate_window_amended_check :
    winCount (stampTimes (procTimes 1 burstIters 0 [])) 0 ≤ 1 ∧
    winCount (mutTimes (procTimes 1 burstIters 0 [])) 0 ≤ 1 + 1 :=
  rate_window_amended 1 0 burstIters 0 le_rfl le_rfl
    (by intro it hi; simp [burstIters] at hi; rcases hi with rfl | rfl <;> norm_num)
    (by intro it hi; simp [burstIters] at hi; rcases hi with rfl | rfl <;> norm_num) 0
